import Mathlib

/-!
Verification development for the `nomen` NPC & place-name generator
(`src/name/npc_place_name_generator_1.py`, with the embedded copy in
`src/name/npc_generator_gui.py` agreeing on all core functions).

Modelling conventions:
* Python's global Mersenne-Twister random source is modelled as an abstract
  deterministic stream `Rng` (a function `Nat → Nat` plus a position).  Every
  primitive draw (`random.randint`, `random.choice`, `random.sample`) consumes
  one stream value per selected index; any sequence of in-range indices that
  CPython can produce corresponds to some stream, and vice versa, so theorems
  quantified over all streams cover all possible random behaviours.
  `random.seed(s)` replaces the stream by `seedStream s` at position 0, where
  `seedStream` (the Mersenne-Twister initialisation) is kept abstract and
  universally quantified.
* `str.replace(old, new)` is embedded as `pyReplace`: a single left-to-right
  non-overlapping scan, exactly CPython's semantics.
* JSON documents are embedded as `JVal` trees; a parsed top-level document is
  an association list `List (String × JVal)` (Python dict with unique keys).
* Python exceptions become the `PyErr` sum type; fallible code returns
  `Except PyErr _`.  Exception message texts raised inside CPython primitives
  (`random.randint`, `random.sample`) are modelled by fixed strings.
-/

namespace Nomen

/-- Abstract deterministic random stream: `stream` is the infinite output
sequence of the seeded generator, `pos` the next index to consume. -/
structure Rng where
  stream : Nat → Nat
  pos : Nat

/-- The random stream advanced past one consumed value. -/
def Rng.step (r : Rng) : Rng := ⟨r.stream, r.pos + 1⟩

/-- The next value of the random stream. -/
def Rng.peek (r : Rng) : Nat := r.stream r.pos

/-- Python exception values raised by the core. -/
inductive PyErr where
  | fileNotFound (msg : String)
  | keyError (msg : String)
  | valueError (msg : String)
  | typeError (msg : String)
deriving DecidableEq, Repr

/-- A scalar JSON value.  The word-list documents this program reads are
two levels of objects whose arrays hold scalars, so the embedding models
exactly that depth; every document shape a claim mentions (missing key,
non-list field, empty list, non-string list element) is representable. -/
inductive JLeaf where
  | lstr (s : String)
  | lnum (n : Int)
  | lbool (b : Bool)
  | lnull
deriving DecidableEq, Repr, Inhabited

/-- The JSON value a field of a type-tag record can hold. -/
inductive JField where
  | scalar (v : JLeaf)
  | flist (xs : List JLeaf)
deriving DecidableEq, Repr, Inhabited

/-- The JSON value a type tag maps to in a document. -/
inductive JNode where
  | node (fields : List (String × JField))
  | leaf (v : JLeaf)
  | arr (xs : List JLeaf)
deriving DecidableEq, Repr, Inhabited

/-- A parsed top-level JSON document: a Python dict keyed by type tags. -/
abbrev JDoc := List (String × JNode)

/-- Python dict key lookup (keys are unique in a parsed JSON document). -/
def lookupKey {β : Type} (fields : List (String × β)) (k : String) : Option β :=
  match fields with
  | [] => none
  | (k', v) :: rest => if k' = k then some v else lookupKey rest k

/-- `str.replace(pat, rep)` with non-empty pattern `p :: ps`: one
left-to-right non-overlapping scan, as in CPython.  `fuel` bounds the
recursion (callers pass the input length, which always suffices). -/
def pyReplaceAux (p : Char) (ps rep : List Char) : Nat → List Char → List Char
  | 0, s => s
  | _ + 1, [] => []
  | fuel + 1, a :: rest =>
    if (p :: ps).isPrefixOf (a :: rest) then
      rep ++ pyReplaceAux p ps rep fuel ((a :: rest).drop (ps.length + 1))
    else
      a :: pyReplaceAux p ps rep fuel rest

/-- `s.replace(String.mk (p :: ps), String.mk rep)` on the character list. -/
def pyReplace (p : Char) (ps rep s : List Char) : List Char :=
  pyReplaceAux p ps rep s.length s

/-- The alphabet iterated by the triple-collapse pass of `_tidy_place_name`. -/
def lcAlphabet : List Char := "abcdefghijklmnopqrstuvwxyz".toList

/-- First letters of the digraph table `["tt","ll","ss","ff","rr","mm","nn"]`. -/
def digraphChars : List Char := ['t', 'l', 's', 'f', 'r', 'm', 'n']

/-- The triple-collapse pass:
`for ch in "abcdefghijklmnopqrstuvwxyz": out = out.replace(ch*3, ch*2)`. -/
def applyTriples (s : List Char) : List Char :=
  lcAlphabet.foldl (fun acc ch => pyReplace ch [ch, ch] [ch, ch] acc) s

/-- The digraph-smoothing pass:
`for seq in ["tt","ll","ss","ff","rr","mm","nn"]: out = out.replace(seq, seq[0])`. -/
def applyDigraphs (s : List Char) : List Char :=
  digraphChars.foldl (fun acc c => pyReplace c [c] [c] acc) s

/-- The string produced by `_tidy_place_name` just before the final
`out[0].upper() + out[1:]` capitalisation. -/
def tidyMid (s : List Char) : List Char :=
  applyDigraphs (applyTriples s)

/-- `NPCPlaceGenerator._tidy_place_name`.  The `[] => ""` branch is dead code:
for non-empty input `tidyMid` is proved non-empty below, so the Python
expression `out[0]` never raises. -/
def tidyPlaceName (raw : String) : String :=
  if raw.data.isEmpty then raw
  else
    match tidyMid raw.data with
    | [] => ""
    | c :: cs => ⟨c.toUpper :: cs⟩

/-- `random.randint(lo, hi)` (both ends inclusive): raises `ValueError` when
the range is empty, otherwise consumes one stream value. -/
def randintE (lo hi : Nat) (r : Rng) : Except PyErr (Nat × Rng) :=
  if hi < lo then .error (.valueError "empty range for randrange()")
  else .ok (lo + r.peek % (hi + 1 - lo), r.step)

/-- `random.sample(pool, n)` draw loop for `n ≤ pool.length`: each step
selects one position of the remaining pool and removes it (sampling without
replacement over positions). -/
def sampleRaw {α : Type} [Inhabited α] : List α → Nat → Rng → List α × Rng
  | _, 0, r => ([], r)
  | pool, n + 1, r =>
    if pool.isEmpty then ([], r)
    else
      let i := r.peek % pool.length
      let res := sampleRaw (pool.eraseIdx i) n r.step
      (pool.getD i default :: res.1, res.2)

/-- `random.sample(pool, n)`: raises `ValueError` when `n` exceeds the
population size. -/
def sampleE {α : Type} [Inhabited α] (pool : List α) (n : Nat) (r : Rng) :
    Except PyErr (List α × Rng) :=
  if pool.length < n then
    .error (.valueError "Sample larger than population or is negative")
  else .ok (sampleRaw pool n r)

/-- The `while len(result) < n` loop of `_pick_unique` (the `n > len(src)`
branch): `choice = random.choice(pool); pool.remove(choice);
result.append(choice)`, refilling `pool` with a fresh copy of `src` whenever
it empties.  `random.choice` picks a position; `list.remove` erases the first
element equal to the chosen value. -/
def pickLoop {α : Type} [DecidableEq α] [Inhabited α] (src : List α) :
    List α → Nat → Rng → List α × Rng
  | _, 0, r => ([], r)
  | pool, fuel + 1, r =>
    let p := if pool.isEmpty then src else pool
    let c := p.getD (r.peek % p.length) default
    let res := pickLoop src (p.erase c) fuel r.step
    (c :: res.1, res.2)

/-- `NPCPlaceGenerator._pick_unique(src, n)`. -/
def pickUnique {α : Type} [DecidableEq α] [Inhabited α]
    (src : List α) (n : Nat) (r : Rng) : List α × Rng :=
  if n ≤ src.length then sampleRaw src n r
  else if src.isEmpty then ([], r)
  else pickLoop src src n r

/-- `PlaceData`: the validated place-roots list (elements are the raw JSON
values found in the document; the loader checks only list-ness and
non-emptiness). -/
structure PlaceData where
  place_roots : List JLeaf
deriving DecidableEq, Repr

/-- `NameData`: the validated male/female name lists. -/
structure NameData where
  male : List JLeaf
  female : List JLeaf
deriving DecidableEq, Repr

/-- Python subscript `v[k]` on the JSON value a type tag maps to: `KeyError`
for a missing dict key, `TypeError` when `v` is not a dict (string subscripts
on lists or scalars raise `TypeError` in Python). -/
def subscriptJ (v : JNode) (k : String) : Except PyErr JField :=
  match v with
  | .node fields =>
    match lookupKey fields k with
    | some x => .ok x
    | none => .error (.keyError k)
  | _ => .error (.typeError "value is not subscriptable by string")

/-- `PlaceData.from_json(obj, kind)`: reads `obj[kind]["place_roots"]`,
re-raising a `KeyError` with a message, then checks
`isinstance(roots, list) and roots`. -/
def placeDataFromJson (obj : JDoc) (kind : String) : Except PyErr PlaceData :=
  let fetched : Except PyErr JField :=
    match lookupKey obj kind with
    | none => .error (.keyError kind)
    | some node => subscriptJ node "place_roots"
  match fetched with
  | .error (.keyError k) =>
    .error (.keyError ("Missing key in plname json for type " ++ kind ++ ": " ++ k))
  | .error e => .error e
  | .ok roots =>
    match roots with
    | .flist [] => .error (.valueError "place_roots must be a non-empty list")
    | .flist xs => .ok ⟨xs⟩
    | .scalar _ => .error (.valueError "place_roots must be a non-empty list")

/-- `NameData.from_json(obj, kind)`. -/
def nameDataFromJson (obj : JDoc) (kind : String) : Except PyErr NameData :=
  let fetched : Except PyErr (JField × JField) :=
    match lookupKey obj kind with
    | none => .error (.keyError kind)
    | some node =>
      match subscriptJ node "male", subscriptJ node "female" with
      | .ok m, .ok f => .ok (m, f)
      | .error e, _ => .error e
      | _, .error e => .error e
  match fetched with
  | .error (.keyError k) =>
    .error (.keyError ("Missing key in name json for type " ++ kind ++ ": " ++ k))
  | .error e => .error e
  | .ok (m, f) =>
    match m, f with
    | .flist ms, .flist fs =>
      if ms.isEmpty ∨ fs.isEmpty then
        .error (.valueError "male/female lists must be non-empty")
      else .ok ⟨ms, fs⟩
    | _, _ => .error (.valueError "male/female must be lists")

/-- `GeneratorConfig` (the `data_dir`/path fields feed only the out-of-scope
file I/O and are omitted; documents are passed to the embedding already
parsed). -/
structure GeneratorConfig where
  placeType : String
  nameType : String
  numMale : Nat
  numFemale : Nat
  minRoots : Nat
  maxRoots : Nat
  seed : Option Int
deriving DecidableEq, Repr

/-- The state of a constructed `NPCPlaceGenerator`: config, loaded data and
the process-global random source as left by `__init__`. -/
structure LoadedGen where
  cfg : GeneratorConfig
  placeData : PlaceData
  nameData : NameData
  rng : Rng

/-- The generated bundle `{village, residents: {male, female}}`. -/
structure Bundle where
  village : String
  male : List String
  female : List String
deriving DecidableEq, Repr

/-- Python `str(v)` as used by the f-string `f"{m} of {village}"` for the
scalar JSON values a name list can hold. -/
def pyStr (v : JLeaf) : String :=
  match v with
  | .lstr s => s
  | .lnum n => toString n
  | .lbool true => "True"
  | .lbool false => "False"
  | .lnull => "None"

/-- `"".join(roots)`: `TypeError` when an element is not a string. -/
def joinStrE : List JLeaf → Except PyErr String
  | [] => .ok ""
  | .lstr s :: rest =>
    match joinStrE rest with
    | .ok t => .ok (s ++ t)
    | .error e => .error e
  | _ :: _ => .error (.typeError "sequence item: expected str instance")

/-- `NPCPlaceGenerator.__init__`: seed the global random source (if a seed is
given) before anything else, then load and validate both documents; any
loader failure propagates and no generator state is produced. -/
def npcInit (seedStream : Int → Nat → Nat) (σ : Rng) (cfg : GeneratorConfig)
    (placeDoc nameDoc : JDoc) : Except PyErr LoadedGen :=
  let r0 : Rng :=
    match cfg.seed with
    | some s => ⟨seedStream s, 0⟩
    | none => σ
  match placeDataFromJson placeDoc cfg.placeType with
  | .error e => .error e
  | .ok pd =>
    match nameDataFromJson nameDoc cfg.nameType with
    | .error e => .error e
    | .ok nd => .ok ⟨cfg, pd, nd, r0⟩

/-- `generate_bundle`: `generate_place_name` (randint for the root count,
sample for the roots, join, tidy) followed by `generate_residents`
(male picks, then female picks, then formatting). -/
def generateBundle (g : LoadedGen) : Except PyErr Bundle :=
  match randintE g.cfg.minRoots g.cfg.maxRoots g.rng with
  | .error e => .error e
  | .ok kr =>
    match sampleE g.placeData.place_roots kr.1 kr.2 with
    | .error e => .error e
    | .ok rootsr =>
      match joinStrE rootsr.1 with
      | .error e => .error e
      | .ok raw =>
        let village := tidyPlaceName raw
        let pm := pickUnique g.nameData.male g.cfg.numMale rootsr.2
        let pf := pickUnique g.nameData.female g.cfg.numFemale pm.2
        .ok ⟨village,
             pm.1.map (fun m => pyStr m ++ " of " ++ village),
             pf.1.map (fun f => pyStr f ++ " of " ++ village)⟩

/-- One complete generation call: construct the generator (seeding and
loading) and produce the bundle. -/
def runGenerator (seedStream : Int → Nat → Nat) (σ : Rng)
    (cfg : GeneratorConfig) (placeDoc nameDoc : JDoc) : Except PyErr Bundle :=
  match npcInit seedStream σ cfg placeDoc nameDoc with
  | .error e => .error e
  | .ok g => generateBundle g

/-!
Store-level rendering of `_pick_unique`, used to settle the frame property
that the function never mutates its argument list.  Python list objects are
cells of a heap (`Heap α`, indexed by allocation order); the variables `src`,
`pool` and `result` hold references.  `pool = src[:]` / `pool = list(src)`
allocates a fresh cell holding a copy; `pool.remove(choice)` and
`result.append(choice)` are in-place writes to the cell the variable
currently references.
-/

/-- The heap of Python list objects: cell `i` is the `i`-th allocated list. -/
abbrev Heap (α : Type) := List (List α)

/-- Read the list object a reference points to. -/
def readH {α : Type} (h : Heap α) (ref : Nat) : List α := (h.get? ref).getD []

/-- Overwrite the list object a reference points to (in-place mutation). -/
def writeH {α : Type} (h : Heap α) (ref : Nat) (v : List α) : Heap α := h.set ref v

/-- Allocate a fresh list object, returning the new heap and its reference. -/
def allocH {α : Type} (h : Heap α) (v : List α) : Heap α × Nat := (h ++ [v], h.length)

/-- The `while` loop of `_pick_unique` at store level: arguments are the heap,
the reference held by `pool`, the reference held by `result`, the remaining
iteration count and the random stream.  Returns the final heap and stream. -/
def pickLoopH {α : Type} [DecidableEq α] [Inhabited α] (srcRef : Nat) :
    Heap α → Nat → Nat → Nat → Rng → Heap α × Rng
  | h, _, _, 0, r => (h, r)
  | h, poolRef, resRef, fuel + 1, r =>
    let refreshed :=
      if (readH h poolRef).isEmpty then allocH h (readH h srcRef) else (h, poolRef)
    let h1 := refreshed.1
    let pRef := refreshed.2
    let pool := readH h1 pRef
    let c := pool.getD (r.peek % pool.length) default
    let h2 := writeH h1 pRef (pool.erase c)
    let h3 := writeH h2 resRef (readH h2 resRef ++ [c])
    pickLoopH srcRef h3 pRef resRef fuel r.step

/-- `_pick_unique(src, n)` at store level: `src` is passed by reference;
the result list is freshly allocated (its reference is returned), and in the
overdraw branch the working pool is a freshly allocated copy of `src`. -/
def pickUniqueH {α : Type} [DecidableEq α] [Inhabited α]
    (h : Heap α) (srcRef : Nat) (n : Nat) (r : Rng) : Heap α × Nat × Rng :=
  let src := readH h srcRef
  if n ≤ src.length then
    let res := sampleRaw src n r
    let alloc1 := allocH h res.1
    (alloc1.1, alloc1.2, res.2)
  else
    let alloc1 := allocH h []
    if src.isEmpty then (alloc1.1, alloc1.2, r)
    else
      let alloc2 := allocH alloc1.1 src
      let looped := pickLoopH srcRef alloc2.1 alloc2.2 alloc1.2 n r
      (looped.1, alloc1.2, looped.2)

/-! ### Properties of the tidy transform -/

theorem pyReplaceAux_ne_nil (p : Char) (ps rep : List Char) (hrep : rep ≠ []) :
    ∀ (fuel : Nat) (s : List Char), s ≠ [] → pyReplaceAux p ps rep fuel s ≠ [] := by
  intro fuel
  induction fuel with
  | zero => intro s hs; simpa [pyReplaceAux] using hs
  | succ n ih =>
    intro s hs
    match s with
    | [] => exact absurd rfl hs
    | a :: rest =>
      simp only [pyReplaceAux]
      split
      · simp [hrep]
      · simp

theorem foldl_ne_nil {β : Type} (f : List Char → β → List Char)
    (H : ∀ s c, s ≠ [] → f s c ≠ []) :
    ∀ (l : List β) (s : List Char), s ≠ [] → l.foldl f s ≠ [] := by
  intro l
  induction l with
  | nil => intro s hs; simpa using hs
  | cons c cs ih => intro s hs; simpa using ih (f s c) (H s c hs)

theorem applyTriples_ne_nil (s : List Char) (hs : s ≠ []) : applyTriples s ≠ [] :=
  foldl_ne_nil _
    (fun t ch ht => pyReplaceAux_ne_nil ch [ch, ch] [ch, ch] (by simp) t.length t ht)
    lcAlphabet s hs

theorem applyDigraphs_ne_nil (s : List Char) (hs : s ≠ []) : applyDigraphs s ≠ [] :=
  foldl_ne_nil _
    (fun t ch ht => pyReplaceAux_ne_nil ch [ch] [ch] (by simp) t.length t ht)
    digraphChars s hs

theorem tidyMid_ne_nil (s : List Char) (hs : s ≠ []) : tidyMid s ≠ [] :=
  applyDigraphs_ne_nil _ (applyTriples_ne_nil s hs)

/-- C9: `_tidy_place_name` is total: the empty string is returned unchanged;
for non-empty input the intermediate string (triple collapse then digraph
smoothing) is non-empty — so the Python indexing `out[0]` cannot raise — and
the result is exactly that intermediate string with its first character
uppercased and the remainder untouched (in particular the result is
non-empty). -/
theorem tidy_total_capitalize (raw : String) (hraw : raw ≠ "") :
    tidyPlaceName "" = "" ∧
    tidyPlaceName raw ≠ "" ∧
    ∃ c cs, tidyMid raw.data = c :: cs ∧ tidyPlaceName raw = ⟨c.toUpper :: cs⟩ := by
  have hdata : raw.data ≠ [] := by
    intro h
    apply hraw
    cases raw with
    | mk l =>
      simp only [String.data] at h
      subst h
      rfl
  have hmid := tidyMid_ne_nil raw.data hdata
  obtain ⟨c, cs, hcons⟩ : ∃ c cs, tidyMid raw.data = c :: cs := by
    cases h : tidyMid raw.data with
    | nil => exact absurd h hmid
    | cons c cs => exact ⟨c, cs, rfl⟩
  have hempty : raw.data.isEmpty = false := by simpa using hdata
  have heq : tidyPlaceName raw = ⟨c.toUpper :: cs⟩ := by
    unfold tidyPlaceName
    rw [hempty]
    simp only [Bool.false_eq_true, if_false, hcons]
  refine ⟨rfl, ?_, c, cs, hcons, heq⟩
  rw [heq]
  intro hcontra
  have := congrArg String.data hcontra
  simp only [String.data] at this
  exact List.noConfusion this

/-- C1 (evaluation at the failing input): a run of three identical letters is
collapsed to two, but a run of four is only reduced to three, because
`out.replace(ch*3, ch*2)` is a single non-overlapping left-to-right pass; so
`tidy("aaaa")` is `"Aaa"`, not the `"Aa"` the specification states. -/
theorem tidy_triple_collapse_eval :
    tidyPlaceName "aaa" = "Aa" ∧ tidyPlaceName "aaaa" = "Aaa" := by
  constructor <;> decide

/-- C8: the tidy transform is not idempotent: on `"aaaaa"` the first pass
leaves `"Aaaa"`, whose lowercase tail still contains a collapsible run, so a
second pass produces the different string `"Aaa"`. -/
theorem tidy_not_idempotent :
    tidyPlaceName "aaaaa" = "Aaaa" ∧
    tidyPlaceName (tidyPlaceName "aaaaa") = "Aaa" ∧
    tidyPlaceName (tidyPlaceName "aaaaa") ≠ tidyPlaceName "aaaaa" := by
  refine ⟨by decide, by decide, by decide⟩

/-- Witness for C9 at the concrete input `"ab"`. -/
theorem tidy_total_capitalize_witness :
    ("ab" : String) ≠ "" ∧
    (tidyPlaceName "" = "" ∧
     tidyPlaceName "ab" ≠ "" ∧
     ∃ c cs, tidyMid "ab".data = c :: cs ∧ tidyPlaceName "ab" = ⟨c.toUpper :: cs⟩) :=
  ⟨by decide, tidy_total_capitalize "ab" (by decide)⟩

/-! ### Properties of the sampling primitives -/

theorem getD_mem {α : Type} [Inhabited α] (l : List α) (i : Nat) (h : i < l.length) :
    l.getD i default ∈ l := by
  rw [List.getD_eq_getElem l default h]
  exact List.getElem_mem h

theorem getD_cons_eraseIdx_perm {α : Type} [Inhabited α] :
    ∀ (pool : List α) (i : Nat), i < pool.length →
      List.Perm (pool.getD i default :: pool.eraseIdx i) pool := by
  intro pool
  induction pool with
  | nil => intro i hi; simp at hi
  | cons a l ih =>
    intro i hi
    cases i with
    | zero => simp
    | succ n =>
      have hn : n < l.length := by simpa using hi
      have h1 : (a :: l).getD (n + 1) default = l.getD n default := by simp
      have h2 : (a :: l).eraseIdx (n + 1) = a :: l.eraseIdx n := by simp
      rw [h1, h2]
      exact (List.Perm.swap a (l.getD n default) (l.eraseIdx n)).trans ((ih n hn).cons a)

theorem sampleRaw_length {α : Type} [Inhabited α] :
    ∀ (n : Nat) (pool : List α) (r : Rng), n ≤ pool.length →
      ((sampleRaw pool n r).1).length = n := by
  intro n
  induction n with
  | zero => intro pool r _; rfl
  | succ m ih =>
    intro pool r h
    have hpool : pool.isEmpty = false := by
      simp only [List.isEmpty_eq_false]
      intro hnil
      rw [hnil] at h
      simp at h
    have hlen : 0 < pool.length := List.length_pos.mpr (List.isEmpty_eq_false.mp hpool)
    have hi : r.peek % pool.length < pool.length := Nat.mod_lt _ hlen
    have herase : (pool.eraseIdx (r.peek % pool.length)).length = pool.length - 1 := by
      rw [List.length_eraseIdx]
      simp [hi]
    simp only [sampleRaw, hpool, Bool.false_eq_true, if_false, List.length_cons]
    rw [ih (pool.eraseIdx (r.peek % pool.length)) r.step (by rw [herase]; omega)]

theorem sampleRaw_subperm {α : Type} [Inhabited α] :
    ∀ (n : Nat) (pool : List α) (r : Rng), List.Subperm (sampleRaw pool n r).1 pool := by
  intro n
  induction n with
  | zero => intro pool r; exact List.nil_subperm
  | succ m ih =>
    intro pool r
    cases hpool : pool.isEmpty with
    | true =>
      simp only [sampleRaw, hpool, if_true]
      exact List.nil_subperm
    | false =>
      simp only [sampleRaw, hpool, Bool.false_eq_true, if_false]
      have hlen : 0 < pool.length := List.length_pos.mpr (List.isEmpty_eq_false.mp hpool)
      have hi : r.peek % pool.length < pool.length := Nat.mod_lt _ hlen
      have hrec := ih (pool.eraseIdx (r.peek % pool.length)) r.step
      exact ((List.subperm_cons _).mpr hrec).trans
        (getD_cons_eraseIdx_perm pool _ hi).subperm

theorem sampleRaw_mem {α : Type} [Inhabited α] (pool : List α) (n : Nat) (r : Rng) :
    ∀ x ∈ (sampleRaw pool n r).1, x ∈ pool :=
  fun _ hx => (sampleRaw_subperm n pool r).subset hx

theorem sampleRaw_nodup {α : Type} [Inhabited α] (pool : List α) (n : Nat) (r : Rng)
    (h : pool.Nodup) : ((sampleRaw pool n r).1).Nodup := by
  obtain ⟨l, hperm, hsub⟩ := sampleRaw_subperm n pool r
  exact hperm.nodup_iff.mp (hsub.nodup h)

/-! ### Properties of the `_pick_unique` overdraw loop -/

theorem pickLoop_length {α : Type} [DecidableEq α] [Inhabited α] (src : List α) :
    ∀ (fuel : Nat) (pool : List α) (r : Rng),
      ((pickLoop src pool fuel r).1).length = fuel := by
  intro fuel
  induction fuel with
  | zero => intro pool r; rfl
  | succ m ih =>
    intro pool r
    simp only [pickLoop, List.length_cons, ih]

theorem pickLoop_mem {α : Type} [DecidableEq α] [Inhabited α]
    (src : List α) (hsrc : src ≠ []) :
    ∀ (fuel : Nat) (pool : List α) (r : Rng), (∀ y ∈ pool, y ∈ src) →
      ∀ x ∈ (pickLoop src pool fuel r).1, x ∈ src := by
  intro fuel
  induction fuel with
  | zero => intro pool r _ x hx; simp [pickLoop] at hx
  | succ m ih =>
    intro pool r hpool x hx
    cases hpe : pool.isEmpty with
    | true =>
      have hnil : pool = [] := by simpa using hpe
      subst hnil
      simp only [pickLoop, List.isEmpty_nil, eq_self_iff_true, if_true] at hx
      have hslen : 0 < src.length := List.length_pos.mpr hsrc
      have hcmem : src.getD (r.peek % src.length) default ∈ src :=
        getD_mem src _ (Nat.mod_lt _ hslen)
      rcases List.mem_cons.mp hx with hh | hh
      · exact hh ▸ hcmem
      · exact ih (src.erase _) r.step (fun y hy => List.mem_of_mem_erase hy) x hh
    | false =>
      have hpne : pool ≠ [] := List.isEmpty_eq_false.mp hpe
      have hplen : 0 < pool.length := List.length_pos.mpr hpne
      simp only [pickLoop, hpe, Bool.false_eq_true, if_false] at hx
      have hcmem : pool.getD (r.peek % pool.length) default ∈ pool :=
        getD_mem pool _ (Nat.mod_lt _ hplen)
      rcases List.mem_cons.mp hx with hh | hh
      · exact hpool _ (hh ▸ hcmem)
      · exact ih (pool.erase _) r.step
          (fun y hy => hpool _ (List.mem_of_mem_erase hy)) x hh

/-- Upper bound on how often a value can occur in the loop's output: its
occurrences in the current pool, plus its multiplicity in `src` for every
(possibly partial) refresh round the remaining draws can start. -/
theorem pickLoop_count_le {α : Type} [DecidableEq α] [Inhabited α]
    (src : List α) (x : α) (hsrc : src ≠ []) :
    ∀ (fuel : Nat) (pool : List α) (r : Rng),
      ((pickLoop src pool fuel r).1).count x ≤
        pool.count x +
          src.count x * ((fuel - pool.length + (src.length - 1)) / src.length) := by
  have hslen : 0 < src.length := List.length_pos.mpr hsrc
  intro fuel
  induction fuel with
  | zero =>
    intro pool r
    simp [pickLoop]
  | succ m ih =>
    intro pool r
    cases hpe : pool.isEmpty with
    | true =>
      have hnil : pool = [] := by simpa using hpe
      subst hnil
      simp only [pickLoop, List.isEmpty_nil, eq_self_iff_true, if_true,
        List.count_nil, List.length_nil, Nat.sub_zero, Nat.zero_add]
      set c := src.getD (r.peek % src.length) default with hcdef
      have hcmem : c ∈ src := getD_mem src _ (Nat.mod_lt _ hslen)
      have hIH := ih (src.erase c) r.step
      rw [List.length_erase_of_mem hcmem] at hIH
      have hnum : m + 1 + (src.length - 1) = m + src.length := by omega
      rw [hnum, Nat.add_div_right _ hslen, Nat.mul_add, Nat.mul_one]
      simp only [List.count_cons, beq_iff_eq]
      by_cases hcx : c = x
      · rw [if_pos hcx]
        have hec : (src.erase c).count x = src.count x - 1 := by
          rw [hcx]
          exact List.count_erase_self x src
        rw [hec] at hIH
        have hcpos : 0 < src.count x := List.count_pos_iff.mpr (hcx ▸ hcmem)
        by_cases hms : src.length - 1 ≤ m
        · have hn2 : m - (src.length - 1) + (src.length - 1) = m := by omega
          rw [hn2] at hIH
          set A := src.count x * (m / src.length) with hA
          omega
        · have hn2 : m - (src.length - 1) + (src.length - 1) = src.length - 1 := by
            omega
          rw [hn2, Nat.div_eq_of_lt (by omega), Nat.mul_zero, Nat.add_zero] at hIH
          set A := src.count x * (m / src.length) with hA
          omega
      · rw [if_neg hcx]
        rw [List.count_erase_of_ne (fun hh => hcx hh.symm)] at hIH
        by_cases hms : src.length - 1 ≤ m
        · have hn2 : m - (src.length - 1) + (src.length - 1) = m := by omega
          rw [hn2] at hIH
          set A := src.count x * (m / src.length) with hA
          omega
        · have hn2 : m - (src.length - 1) + (src.length - 1) = src.length - 1 := by
            omega
          rw [hn2, Nat.div_eq_of_lt (by omega), Nat.mul_zero, Nat.add_zero] at hIH
          set A := src.count x * (m / src.length) with hA
          omega
    | false =>
      have hpne : pool ≠ [] := List.isEmpty_eq_false.mp hpe
      have hplen : 0 < pool.length := List.length_pos.mpr hpne
      simp only [pickLoop, hpe, Bool.false_eq_true, if_false]
      set c := pool.getD (r.peek % pool.length) default with hcdef
      have hcmem : c ∈ pool := getD_mem pool _ (Nat.mod_lt _ hplen)
      have hIH := ih (pool.erase c) r.step
      rw [List.length_erase_of_mem hcmem] at hIH
      have hnum : m - (pool.length - 1) = m + 1 - pool.length := by omega
      rw [hnum] at hIH
      simp only [List.count_cons, beq_iff_eq]
      by_cases hcx : c = x
      · rw [if_pos hcx]
        have hec : (pool.erase c).count x = pool.count x - 1 := by
          rw [hcx]
          exact List.count_erase_self x pool
        rw [hec] at hIH
        have hcpos : 0 < pool.count x := List.count_pos_iff.mpr (hcx ▸ hcmem)
        set A := src.count x * ((m + 1 - pool.length + (src.length - 1)) / src.length)
          with hA
        omega
      · rw [if_neg hcx]
        rw [List.count_erase_of_ne (fun hh => hcx hh.symm)] at hIH
        set A := src.count x * ((m + 1 - pool.length + (src.length - 1)) / src.length)
          with hA
        omega

/-- Lower bound: once the current pool has been exhausted (which takes
`pool.length` draws), every `src.length` further draws replay a full copy of
`src`, so a value occurs at least its current-pool count plus its `src`
multiplicity per completed refresh round. -/
theorem pickLoop_le_count {α : Type} [DecidableEq α] [Inhabited α]
    (src : List α) (x : α) (hsrc : src ≠ []) :
    ∀ (fuel : Nat) (pool : List α) (r : Rng),
      (if pool.length ≤ fuel then pool.count x else 0) +
          src.count x * ((fuel - pool.length) / src.length) ≤
        ((pickLoop src pool fuel r).1).count x := by
  have hslen : 0 < src.length := List.length_pos.mpr hsrc
  intro fuel
  induction fuel with
  | zero =>
    intro pool r
    by_cases h0 : pool.length ≤ 0
    · have hnil : pool = [] := List.length_eq_zero.mp (Nat.le_zero.mp h0)
      subst hnil
      simp [pickLoop]
    · rw [if_neg h0]
      simp [pickLoop, Nat.zero_sub]
  | succ m ih =>
    intro pool r
    cases hpe : pool.isEmpty with
    | true =>
      have hnil : pool = [] := by simpa using hpe
      subst hnil
      simp only [pickLoop, List.isEmpty_nil, eq_self_iff_true, if_true,
        List.count_nil, List.length_nil, Nat.sub_zero, ite_self, Nat.zero_add]
      set c := src.getD (r.peek % src.length) default with hcdef
      have hcmem : c ∈ src := getD_mem src _ (Nat.mod_lt _ hslen)
      have hIH := ih (src.erase c) r.step
      rw [List.length_erase_of_mem hcmem] at hIH
      simp only [List.count_cons, beq_iff_eq]
      by_cases hsm : src.length ≤ m + 1
      · have hcond : src.length - 1 ≤ m := by omega
        rw [if_pos hcond] at hIH
        have hn1 : m + 1 - src.length = m - (src.length - 1) := by omega
        have hdiv : (m + 1) / src.length = (m - (src.length - 1)) / src.length + 1 := by
          rw [Nat.div_eq_sub_div hslen hsm, hn1]
        rw [hdiv, Nat.mul_add, Nat.mul_one]
        by_cases hcx : c = x
        · rw [if_pos hcx]
          have hec : (src.erase c).count x = src.count x - 1 := by
            rw [hcx]
            exact List.count_erase_self x src
          rw [hec] at hIH
          have hcpos : 0 < src.count x := List.count_pos_iff.mpr (hcx ▸ hcmem)
          set A := src.count x * ((m - (src.length - 1)) / src.length) with hA
          omega
        · rw [if_neg hcx]
          rw [List.count_erase_of_ne (fun hh => hcx hh.symm)] at hIH
          set A := src.count x * ((m - (src.length - 1)) / src.length) with hA
          omega
      · have hdiv : (m + 1) / src.length = 0 := Nat.div_eq_of_lt (by omega)
        rw [hdiv, Nat.mul_zero]
        exact Nat.zero_le _
    | false =>
      have hpne : pool ≠ [] := List.isEmpty_eq_false.mp hpe
      have hplen : 0 < pool.length := List.length_pos.mpr hpne
      simp only [pickLoop, hpe, Bool.false_eq_true, if_false]
      set c := pool.getD (r.peek % pool.length) default with hcdef
      have hcmem : c ∈ pool := getD_mem pool _ (Nat.mod_lt _ hplen)
      have hIH := ih (pool.erase c) r.step
      rw [List.length_erase_of_mem hcmem] at hIH
      have hnum : m - (pool.length - 1) = m + 1 - pool.length := by omega
      rw [hnum] at hIH
      simp only [List.count_cons, beq_iff_eq]
      by_cases hcond : pool.length ≤ m + 1
      · rw [if_pos hcond]
        rw [if_pos (by omega : pool.length - 1 ≤ m)] at hIH
        by_cases hcx : c = x
        · rw [if_pos hcx]
          have hec : (pool.erase c).count x = pool.count x - 1 := by
            rw [hcx]
            exact List.count_erase_self x pool
          rw [hec] at hIH
          have hcpos : 0 < pool.count x := List.count_pos_iff.mpr (hcx ▸ hcmem)
          set A := src.count x * ((m + 1 - pool.length) / src.length) with hA
          omega
        · rw [if_neg hcx]
          rw [List.count_erase_of_ne (fun hh => hcx hh.symm)] at hIH
          set A := src.count x * ((m + 1 - pool.length) / src.length) with hA
          omega
      · rw [if_neg hcond]
        have hz : m + 1 - pool.length = 0 := by omega
        rw [hz, Nat.zero_div, Nat.mul_zero]
        exact Nat.zero_le _

theorem pickUnique_mem {α : Type} [DecidableEq α] [Inhabited α]
    (src : List α) (n : Nat) (r : Rng) :
    ∀ x ∈ (pickUnique src n r).1, x ∈ src := by
  intro x hx
  unfold pickUnique at hx
  by_cases h : n ≤ src.length
  · rw [if_pos h] at hx
    exact sampleRaw_mem src n r x hx
  · rw [if_neg h] at hx
    by_cases he : src.isEmpty
    · rw [if_pos he] at hx
      simp at hx
    · rw [if_neg he] at hx
      have hsrc : src ≠ [] := by simpa using he
      exact pickLoop_mem src hsrc n src r (fun y hy => hy) x hx

/-- C5 (amended): for `n ≤ |pool|` the picker returns exactly `n` elements of
the pool, pairwise distinct whenever the pool's elements are pairwise
distinct, and `n = 0` yields the empty result. -/
theorem pickUnique_within_pool_spec (src : List String) (n : Nat) (r : Rng)
    (h : n ≤ src.length) :
    ((pickUnique src n r).1).length = n ∧
    (∀ x ∈ (pickUnique src n r).1, x ∈ src) ∧
    (src.Nodup → ((pickUnique src n r).1).Nodup) ∧
    (n = 0 → (pickUnique src n r).1 = []) := by
  have hpick : (pickUnique src n r).1 = (sampleRaw src n r).1 := by
    unfold pickUnique
    rw [if_pos h]
  refine ⟨?_, ?_, ?_, ?_⟩
  · rw [hpick]
    exact sampleRaw_length n src r h
  · intro x hx
    exact pickUnique_mem src n r x hx
  · intro hnd
    rw [hpick]
    exact sampleRaw_nodup src n r hnd
  · intro h0
    subst h0
    rw [hpick]
    rfl

/-- C5 counterexample to the claim as stated: on the pool `["a","a"]` (which
contains a repeated string) with `n = 2 ≤ |pool|` there is a random behaviour
under which `_pick_unique` returns `["a","a"]`, whose elements are not
pairwise distinct. -/
theorem pickUnique_distinct_counterexample :
    2 ≤ (["a", "a"] : List String).length ∧
    (pickUnique ["a", "a"] 2 ⟨fun _ => 0, 0⟩).1 = ["a", "a"] ∧
    ¬ ((pickUnique ["a", "a"] 2 ⟨fun _ => 0, 0⟩).1).Nodup := by
  refine ⟨by decide, by decide, by decide⟩

/-- Witness for C5 at the concrete pool `["a","b"]`, `n = 1`. -/
theorem pickUnique_within_pool_spec_witness :
    1 ≤ (["a", "b"] : List String).length ∧
    (((pickUnique ["a", "b"] 1 ⟨fun _ => 0, 0⟩).1).length = 1 ∧
     (∀ x ∈ (pickUnique ["a", "b"] 1 ⟨fun _ => 0, 0⟩).1, x ∈ (["a", "b"] : List String)) ∧
     ((["a", "b"] : List String).Nodup → ((pickUnique ["a", "b"] 1 ⟨fun _ => 0, 0⟩).1).Nodup) ∧
     (1 = 0 → (pickUnique ["a", "b"] 1 ⟨fun _ => 0, 0⟩).1 = [])) :=
  ⟨by decide, pickUnique_within_pool_spec ["a", "b"] 1 ⟨fun _ => 0, 0⟩ (by decide)⟩

/-- C2 (amended): overdraw from a non-empty pool returns exactly `n` elements
in which every pool element occurs at least `⌊n/|pool|⌋` times; when the
pool's elements are pairwise distinct the per-element counts moreover differ
by at most one.  An empty pool yields the empty result. -/
theorem pickUnique_overdraw_balanced (src : List String) (n : Nat) (r : Rng)
    (h : src.length < n) :
    (src = [] → (pickUnique src n r).1 = []) ∧
    (src ≠ [] →
      ((pickUnique src n r).1).length = n ∧
      (∀ x ∈ src, n / src.length ≤ ((pickUnique src n r).1).count x) ∧
      (src.Nodup → ∀ x ∈ src, ∀ y ∈ src,
        ((pickUnique src n r).1).count x ≤ ((pickUnique src n r).1).count y + 1)) := by
  constructor
  · intro hnil
    subst hnil
    unfold pickUnique
    rw [if_neg (by intro hcontra; simp at hcontra; omega)]
    rfl
  · intro hsrc
    have hslen : 0 < src.length := List.length_pos.mpr hsrc
    have hpick : (pickUnique src n r).1 = (pickLoop src src n r).1 := by
      unfold pickUnique
      rw [if_neg (by omega), if_neg (by simpa using hsrc)]
    refine ⟨?_, ?_, ?_⟩
    · rw [hpick]
      exact pickLoop_length src n src r
    · intro x hxs
      rw [hpick]
      have hLB := pickLoop_le_count src x hsrc n src r
      rw [if_pos (by omega : src.length ≤ n)] at hLB
      have hxpos : 0 < src.count x := List.count_pos_iff.mpr hxs
      have hdiv : n / src.length = (n - src.length) / src.length + 1 :=
        Nat.div_eq_sub_div hslen (Nat.le_of_lt h)
      rw [hdiv]
      have hP : (n - src.length) / src.length ≤
          src.count x * ((n - src.length) / src.length) :=
        Nat.le_mul_of_pos_left _ hxpos
      set A := src.count x * ((n - src.length) / src.length) with hA
      omega
    · intro hnd x hxs y hys
      rw [hpick]
      have hUB := pickLoop_count_le src x hsrc n src r
      have hLB := pickLoop_le_count src y hsrc n src r
      rw [if_pos (by omega : src.length ≤ n)] at hLB
      have hx1 : src.count x = 1 := List.count_eq_one_of_mem hnd hxs
      have hy1 : src.count y = 1 := List.count_eq_one_of_mem hnd hys
      rw [hx1, Nat.one_mul] at hUB
      rw [hy1, Nat.one_mul] at hLB
      have hnum : n - src.length + (src.length - 1) = n - 1 := by omega
      rw [hnum] at hUB
      have hdiv : n / src.length = (n - src.length) / src.length + 1 :=
        Nat.div_eq_sub_div hslen (Nat.le_of_lt h)
      have hmono : (n - 1) / src.length ≤ n / src.length :=
        Nat.div_le_div_right (by omega)
      omega

/-- C2 counterexample to the claim as stated: on the pool `["a","a","b"]`
(which contains a repeated string) with `n = 4 > |pool|` there is a random
behaviour under which the counts are 3 for `"a"` and 1 for `"b"`, so the
maximum per-element count exceeds the minimum by more than one. -/
theorem pickUnique_balance_counterexample :
    (["a", "a", "b"] : List String).length < 4 ∧
    ((pickUnique ["a", "a", "b"] 4 ⟨fun _ => 0, 0⟩).1).count "a" = 3 ∧
    ((pickUnique ["a", "a", "b"] 4 ⟨fun _ => 0, 0⟩).1).count "b" = 1 ∧
    ¬ (((pickUnique ["a", "a", "b"] 4 ⟨fun _ => 0, 0⟩).1).count "a" ≤
        ((pickUnique ["a", "a", "b"] 4 ⟨fun _ => 0, 0⟩).1).count "b" + 1) := by
  refine ⟨by decide, by decide, by decide, by decide⟩

/-- Witness for C2 at the concrete pool `["a","b"]`, `n = 5`. -/
theorem pickUnique_overdraw_balanced_witness :
    (["a", "b"] : List String).length < 5 ∧
    (((["a", "b"] : List String) = [] →
        (pickUnique ["a", "b"] 5 ⟨fun _ => 0, 0⟩).1 = []) ∧
     ((["a", "b"] : List String) ≠ [] →
        ((pickUnique ["a", "b"] 5 ⟨fun _ => 0, 0⟩).1).length = 5 ∧
        (∀ x ∈ (["a", "b"] : List String),
          5 / (["a", "b"] : List String).length ≤
            ((pickUnique ["a", "b"] 5 ⟨fun _ => 0, 0⟩).1).count x) ∧
        ((["a", "b"] : List String).Nodup →
          ∀ x ∈ (["a", "b"] : List String), ∀ y ∈ (["a", "b"] : List String),
            ((pickUnique ["a", "b"] 5 ⟨fun _ => 0, 0⟩).1).count x ≤
              ((pickUnique ["a", "b"] 5 ⟨fun _ => 0, 0⟩).1).count y + 1))) :=
  ⟨by decide, pickUnique_overdraw_balanced ["a", "b"] 5 ⟨fun _ => 0, 0⟩ (by decide)⟩

/-! ### Frame property of `_pick_unique` at store level -/

theorem get?_set_ne {α : Type} (v : List α) :
    ∀ (l : List (List α)) (i j : Nat), i ≠ j → (l.set i v).get? j = l.get? j := by
  intro l
  induction l with
  | nil => intro i j _; simp
  | cons a t ih =>
    intro i j hij
    cases i with
    | zero =>
      cases j with
      | zero => exact absurd rfl hij
      | succ jj => simp
    | succ ii =>
      cases j with
      | zero => simp
      | succ jj => simpa using ih ii jj (fun hh => hij (by rw [hh]))

theorem readH_writeH_ne {α : Type} (h : Heap α) (i j : Nat) (v : List α)
    (hij : i ≠ j) : readH (writeH h i v) j = readH h j := by
  unfold readH writeH
  rw [get?_set_ne v h i j hij]

theorem writeH_length {α : Type} (h : Heap α) (i : Nat) (v : List α) :
    (writeH h i v).length = h.length := by
  simp [writeH]

theorem readH_alloc {α : Type} (h : Heap α) (v : List α) (ref : Nat)
    (hlt : ref < h.length) : readH (allocH h v).1 ref = readH h ref := by
  unfold readH allocH
  rw [List.get?_append hlt]

theorem allocH_length {α : Type} (h : Heap α) (v : List α) :
    (allocH h v).1.length = h.length + 1 := by
  simp [allocH]

/-- The reference returned by an allocation is the pre-allocation heap size. -/
theorem allocH_ref {α : Type} (h : Heap α) (v : List α) : (allocH h v).2 = h.length := rfl

/-- While the loop runs, the cell `src` references is never written: the loop
writes only to the pool cell (which is `≠ srcRef`, an invariant preserved
because every refresh allocates a fresh cell) and to the result cell. -/
theorem pickLoopH_frame {α : Type} [DecidableEq α] [Inhabited α] (srcRef : Nat) :
    ∀ (fuel : Nat) (h : Heap α) (poolRef resRef : Nat) (r : Rng),
      srcRef < h.length → poolRef ≠ srcRef → resRef ≠ srcRef →
      readH (pickLoopH srcRef h poolRef resRef fuel r).1 srcRef = readH h srcRef := by
  intro fuel
  induction fuel with
  | zero => intro h poolRef resRef r _ _ _; rfl
  | succ m ih =>
    intro h poolRef resRef r hlt hp hr
    cases hre : (readH h poolRef).isEmpty with
    | true =>
      have hpne : h.length ≠ srcRef := by omega
      simp only [pickLoopH, hre, if_true, allocH_ref]
      set h1 := (allocH h (readH h srcRef)).1 with hh1
      set pool1 := readH h1 h.length with hpool1
      set c := pool1.getD (r.peek % pool1.length) default with hc
      set h2 := writeH h1 h.length (pool1.erase c) with hh2
      set h3 := writeH h2 resRef (readH h2 resRef ++ [c]) with hh3
      have hl1 : h1.length = h.length + 1 := by rw [hh1, allocH_length]
      have hl2 : h2.length = h1.length := by rw [hh2, writeH_length]
      have hl3 : h3.length = h2.length := by rw [hh3, writeH_length]
      rw [ih h3 h.length resRef r.step (by omega) hpne hr]
      rw [hh3, readH_writeH_ne h2 resRef srcRef _ hr]
      rw [hh2, readH_writeH_ne h1 h.length srcRef _ hpne]
      rw [hh1]
      exact readH_alloc h (readH h srcRef) srcRef hlt
    | false =>
      simp only [pickLoopH, hre, Bool.false_eq_true, if_false]
      set pool1 := readH h poolRef with hpool1
      set c := pool1.getD (r.peek % pool1.length) default with hc
      set h2 := writeH h poolRef (pool1.erase c) with hh2
      set h3 := writeH h2 resRef (readH h2 resRef ++ [c]) with hh3
      have hl2 : h2.length = h.length := by rw [hh2, writeH_length]
      have hl3 : h3.length = h2.length := by rw [hh3, writeH_length]
      rw [ih h3 poolRef resRef r.step (by omega) hp hr]
      rw [hh3, readH_writeH_ne h2 resRef srcRef _ hr]
      rw [hh2, readH_writeH_ne h poolRef srcRef _ hp]

/-- C10: `_pick_unique` never mutates its argument: after the call, the list
object `src` references holds exactly the same elements in the same order as
before.  All removal happens on the freshly allocated working copy. -/
theorem pickUniqueH_preserves_src (h : Heap String) (srcRef n : Nat) (r : Rng)
    (hlt : srcRef < h.length) :
    readH (pickUniqueH h srcRef n r).1 srcRef = readH h srcRef := by
  simp only [pickUniqueH]
  by_cases hn : n ≤ (readH h srcRef).length
  · rw [if_pos hn]
    exact readH_alloc h _ srcRef hlt
  · rw [if_neg hn]
    by_cases he : (readH h srcRef).isEmpty
    · rw [if_pos he]
      exact readH_alloc h [] srcRef hlt
    · rw [if_neg he]
      have hlen1 : (allocH h []).1.length = h.length + 1 := allocH_length h []
      have hlen2 : (allocH (allocH h []).1 (readH h srcRef)).1.length = h.length + 2 := by
        rw [allocH_length, hlen1]
      have hframe := pickLoopH_frame srcRef n
        (allocH (allocH h []).1 (readH h srcRef)).1
        (allocH (allocH h []).1 (readH h srcRef)).2
        (allocH h []).2 r
        (by rw [hlen2]; omega)
        (by show (allocH h []).1.length ≠ srcRef; rw [hlen1]; omega)
        (by show h.length ≠ srcRef; omega)
      rw [hframe]
      rw [readH_alloc (allocH h []).1 (readH h srcRef) srcRef (by rw [hlen1]; omega)]
      exact readH_alloc h [] srcRef hlt

/-- Witness for C10 on a concrete one-cell heap. -/
theorem pickUniqueH_preserves_src_witness :
    0 < ([["a", "b"]] : Heap String).length ∧
    readH (pickUniqueH [["a", "b"]] 0 3 ⟨fun _ => 0, 0⟩).1 0 =
      readH ([["a", "b"]] : Heap String) 0 :=
  ⟨by decide, pickUniqueH_preserves_src [["a", "b"]] 0 3 ⟨fun _ => 0, 0⟩ (by decide)⟩

/-! ### The bundle generator -/

theorem joinStrE_ok :
    ∀ (l : List JLeaf), (∀ v ∈ l, ∃ t, v = JLeaf.lstr t) →
      ∃ raw, joinStrE l = .ok raw := by
  intro l
  induction l with
  | nil => intro _; exact ⟨"", rfl⟩
  | cons a rest ih =>
    intro h
    obtain ⟨t, rfl⟩ := h a (List.mem_cons_self a rest)
    obtain ⟨raw, hraw⟩ := ih (fun v hv => h v (List.mem_cons_of_mem _ hv))
    exact ⟨t ++ raw, by simp only [joinStrE, hraw]⟩

theorem pickUnique_length {α : Type} [DecidableEq α] [Inhabited α]
    (src : List α) (n : Nat) (r : Rng) (hsrc : src ≠ []) :
    ((pickUnique src n r).1).length = n := by
  unfold pickUnique
  by_cases hn : n ≤ src.length
  · rw [if_pos hn]
    exact sampleRaw_length n src r hn
  · rw [if_neg hn, if_neg (by simpa using hsrc)]
    exact pickLoop_length src n src r

/-- C3: when a seed is configured, the global random source is re-seeded
before any load or draw, so a complete generation call is independent of the
prior state of the random source: two calls with the same seed, the same
configuration and the same parsed data documents return the same value. -/
theorem runGenerator_seed_deterministic (seedStream : Int → Nat → Nat)
    (σ1 σ2 : Rng) (cfg : GeneratorConfig) (placeDoc nameDoc : JDoc) (s : Int)
    (hseed : cfg.seed = some s) :
    runGenerator seedStream σ1 cfg placeDoc nameDoc =
      runGenerator seedStream σ2 cfg placeDoc nameDoc := by
  simp only [runGenerator, npcInit, hseed]

/-- Witness for C3: two calls that start from different random-source states
but share the seed `7` agree. -/
theorem runGenerator_seed_deterministic_witness :
    (⟨"default", "default", 2, 2, 1, 1, some 7⟩ : GeneratorConfig).seed = some 7 ∧
    runGenerator (fun _ _ => 0) ⟨fun _ => 1, 5⟩
        ⟨"default", "default", 2, 2, 1, 1, some 7⟩
        [("default", .node [("place_roots", .flist [.lstr "rav"])])]
        [("default", .node [("male", .flist [.lstr "Tom"]),
                            ("female", .flist [.lstr "Ann"])])] =
      runGenerator (fun _ _ => 0) ⟨fun _ => 9, 2⟩
        ⟨"default", "default", 2, 2, 1, 1, some 7⟩
        [("default", .node [("place_roots", .flist [.lstr "rav"])])]
        [("default", .node [("male", .flist [.lstr "Tom"]),
                            ("female", .flist [.lstr "Ann"])])] :=
  ⟨rfl, runGenerator_seed_deterministic (fun _ _ => 0) ⟨fun _ => 1, 5⟩ ⟨fun _ => 9, 2⟩
    ⟨"default", "default", 2, 2, 1, 1, some 7⟩
    [("default", .node [("place_roots", .flist [.lstr "rav"])])]
    [("default", .node [("male", .flist [.lstr "Tom"]),
                        ("female", .flist [.lstr "Ann"])])] 7 rfl⟩

/-- C4: with a valid root-count range, enough distinct roots and validated
name data, `generate_bundle` succeeds; the village is the tidy transform of
the concatenation, in draw order, of `k` roots drawn without replacement
(`minRoots ≤ k ≤ maxRoots`, pairwise distinct whenever the root set is), and
the residents are exactly `numMale`/`numFemale` entries of the form
`"<name> of <village>"` with names from the corresponding lists and the
bundle's own village name. -/
theorem generateBundle_shape (g : LoadedGen)
    (hmin : 1 ≤ g.cfg.minRoots) (hmm : g.cfg.minRoots ≤ g.cfg.maxRoots)
    (hmax : g.cfg.maxRoots ≤ g.placeData.place_roots.length)
    (hroots : ∀ v ∈ g.placeData.place_roots, ∃ t, v = JLeaf.lstr t)
    (hm : g.nameData.male ≠ []) (hf : g.nameData.female ≠ []) :
    ∃ b, generateBundle g = .ok b ∧
      (∃ k picked raw,
        g.cfg.minRoots ≤ k ∧ k ≤ g.cfg.maxRoots ∧
        picked.length = k ∧
        List.Subperm picked g.placeData.place_roots ∧
        (g.placeData.place_roots.Nodup → picked.Nodup) ∧
        joinStrE picked = .ok raw ∧ b.village = tidyPlaceName raw) ∧
      b.male.length = g.cfg.numMale ∧
      b.female.length = g.cfg.numFemale ∧
      (∀ e ∈ b.male, ∃ nm ∈ g.nameData.male, e = pyStr nm ++ " of " ++ b.village) ∧
      (∀ e ∈ b.female, ∃ nf ∈ g.nameData.female, e = pyStr nf ++ " of " ++ b.village) := by
  have hw : 0 < g.cfg.maxRoots + 1 - g.cfg.minRoots := by omega
  have hmod := Nat.mod_lt g.rng.peek hw
  set k := g.cfg.minRoots + g.rng.peek % (g.cfg.maxRoots + 1 - g.cfg.minRoots) with hk
  have hkmin : g.cfg.minRoots ≤ k := by omega
  have hkmax : k ≤ g.cfg.maxRoots := by omega
  have hklen : k ≤ g.placeData.place_roots.length := le_trans hkmax hmax
  have hrand : randintE g.cfg.minRoots g.cfg.maxRoots g.rng = .ok (k, g.rng.step) := by
    unfold randintE
    rw [if_neg (by omega)]
  have hsample : sampleE g.placeData.place_roots k g.rng.step =
      .ok (sampleRaw g.placeData.place_roots k g.rng.step) := by
    unfold sampleE
    rw [if_neg (by omega)]
  set picked := (sampleRaw g.placeData.place_roots k g.rng.step).1 with hpicked
  obtain ⟨raw, hraw⟩ :=
    joinStrE_ok picked (fun v hv => hroots v (sampleRaw_mem _ _ _ v hv))
  have hgen : generateBundle g = .ok
      ⟨tidyPlaceName raw,
       ((pickUnique g.nameData.male g.cfg.numMale
          (sampleRaw g.placeData.place_roots k g.rng.step).2).1).map
         (fun m => pyStr m ++ " of " ++ tidyPlaceName raw),
       ((pickUnique g.nameData.female g.cfg.numFemale
          (pickUnique g.nameData.male g.cfg.numMale
            (sampleRaw g.placeData.place_roots k g.rng.step).2).2).1).map
         (fun f => pyStr f ++ " of " ++ tidyPlaceName raw)⟩ := by
    simp only [generateBundle, hrand, hsample, hraw]
  refine ⟨_, hgen, ⟨k, picked, raw, hkmin, hkmax, ?_, ?_, ?_, hraw, rfl⟩, ?_, ?_, ?_, ?_⟩
  · exact sampleRaw_length k _ _ hklen
  · exact sampleRaw_subperm k _ _
  · intro hnd
    exact sampleRaw_nodup _ k _ hnd
  · simp only [List.length_map]
    exact pickUnique_length _ _ _ hm
  · simp only [List.length_map]
    exact pickUnique_length _ _ _ hf
  · intro e he
    simp only [List.mem_map] at he
    obtain ⟨m, hmem, rfl⟩ := he
    exact ⟨m, pickUnique_mem _ _ _ m hmem, rfl⟩
  · intro e he
    simp only [List.mem_map] at he
    obtain ⟨m, hmem, rfl⟩ := he
    exact ⟨m, pickUnique_mem _ _ _ m hmem, rfl⟩

/-- A concrete well-formed generator state, used by witnesses. -/
def sampleGen : LoadedGen :=
  ⟨⟨"default", "default", 1, 1, 1, 1, some 0⟩,
   ⟨[.lstr "rav", .lstr "en"]⟩, ⟨[.lstr "Tom"], [.lstr "Ann"]⟩, ⟨fun _ => 0, 0⟩⟩

/-- Witness for C4 on `sampleGen`. -/
theorem generateBundle_shape_witness :
    (1 ≤ sampleGen.cfg.minRoots ∧
     sampleGen.cfg.minRoots ≤ sampleGen.cfg.maxRoots ∧
     sampleGen.cfg.maxRoots ≤ sampleGen.placeData.place_roots.length ∧
     sampleGen.nameData.male ≠ [] ∧ sampleGen.nameData.female ≠ []) ∧
    (∃ b, generateBundle sampleGen = .ok b ∧
      (∃ k picked raw,
        sampleGen.cfg.minRoots ≤ k ∧ k ≤ sampleGen.cfg.maxRoots ∧
        picked.length = k ∧
        List.Subperm picked sampleGen.placeData.place_roots ∧
        (sampleGen.placeData.place_roots.Nodup → picked.Nodup) ∧
        joinStrE picked = .ok raw ∧ b.village = tidyPlaceName raw) ∧
      b.male.length = sampleGen.cfg.numMale ∧
      b.female.length = sampleGen.cfg.numFemale ∧
      (∀ e ∈ b.male, ∃ nm ∈ sampleGen.nameData.male,
        e = pyStr nm ++ " of " ++ b.village) ∧
      (∀ e ∈ b.female, ∃ nf ∈ sampleGen.nameData.female,
        e = pyStr nf ++ " of " ++ b.village)) :=
  ⟨⟨by decide, by decide, by decide, by decide, by decide⟩,
   generateBundle_shape sampleGen (by decide) (by decide) (by decide)
    (by
      intro v hv
      simp only [sampleGen, List.mem_cons, List.not_mem_nil, or_false] at hv
      rcases hv with rfl | rfl
      · exact ⟨"rav", rfl⟩
      · exact ⟨"en", rfl⟩)
    (by decide) (by decide)⟩

/-- C6: an invalid root-count range (`min_roots > max_roots`), or a drawn
root count exceeding the available roots, makes `generate_bundle` fail with
a typed error carrying a message (the `RangeError` of the specification is
realised as the `ValueError` CPython raises inside `random.randint` /
`random.sample`); no bundle is returned. -/
theorem generateBundle_range_error (g : LoadedGen)
    (h : g.cfg.maxRoots < g.cfg.minRoots ∨
      (g.cfg.minRoots ≤ g.cfg.maxRoots ∧
        g.placeData.place_roots.length <
          g.cfg.minRoots + g.rng.peek % (g.cfg.maxRoots + 1 - g.cfg.minRoots))) :
    ∃ msg, generateBundle g = .error (.valueError msg) := by
  rcases h with h | ⟨h1, h2⟩
  · refine ⟨"empty range for randrange()", ?_⟩
    simp only [generateBundle, randintE, if_pos h]
  · refine ⟨"Sample larger than population or is negative", ?_⟩
    have hrand : randintE g.cfg.minRoots g.cfg.maxRoots g.rng =
        .ok (g.cfg.minRoots + g.rng.peek % (g.cfg.maxRoots + 1 - g.cfg.minRoots),
             g.rng.step) := by
      unfold randintE
      rw [if_neg (by omega)]
    have hsample : sampleE g.placeData.place_roots
        (g.cfg.minRoots + g.rng.peek % (g.cfg.maxRoots + 1 - g.cfg.minRoots))
        g.rng.step =
        .error (.valueError "Sample larger than population or is negative") := by
      unfold sampleE
      rw [if_pos h2]
    simp only [generateBundle, hrand, hsample]

/-- A concrete generator state with an inverted root-count range. -/
def rangeGen : LoadedGen :=
  ⟨⟨"default", "default", 0, 0, 3, 2, none⟩,
   ⟨[.lstr "a"]⟩, ⟨[.lstr "m"], [.lstr "f"]⟩, ⟨fun _ => 0, 0⟩⟩

/-- Witness for C6 on `rangeGen` (`min_roots = 3 > 2 = max_roots`). -/
theorem generateBundle_range_error_witness :
    rangeGen.cfg.maxRoots < rangeGen.cfg.minRoots ∧
    ∃ msg, generateBundle rangeGen = .error (.valueError msg) :=
  ⟨by decide, generateBundle_range_error rangeGen (Or.inl (by decide))⟩

/-- The `SchemaError` class of the specification: the typed errors
`PlaceData.from_json` raises (`KeyError` for a missing field, `ValueError`
for a wrong shape or an empty required list). -/
def isSchemaErr : PyErr → Bool
  | .keyError _ => true
  | .valueError _ => true
  | _ => false

/-- C7: a place document whose record for the requested tag is missing
`place_roots`, or whose `place_roots` is not a list or is the empty list,
makes the loader fail with a typed schema error; the same error propagates
out of the whole generation call, so no `PlaceData` and no bundle is
produced. -/
theorem placeData_schema_error (seedStream : Int → Nat → Nat) (σ : Rng)
    (cfg : GeneratorConfig) (obj nameDoc : JDoc)
    (fields : List (String × JField))
    (hnode : lookupKey obj cfg.placeType = some (.node fields))
    (hbad : lookupKey fields "place_roots" = none ∨
      (∃ v : JLeaf, lookupKey fields "place_roots" = some (.scalar v)) ∨
      lookupKey fields "place_roots" = some (.flist [])) :
    ∃ e, placeDataFromJson obj cfg.placeType = .error e ∧
      isSchemaErr e = true ∧
      runGenerator seedStream σ cfg obj nameDoc = .error e := by
  have main : ∃ e, placeDataFromJson obj cfg.placeType = .error e ∧
      isSchemaErr e = true := by
    rcases hbad with hc | ⟨v, hc⟩ | hc
    · refine ⟨.keyError ("Missing key in plname json for type " ++
        cfg.placeType ++ ": " ++ "place_roots"), ?_, rfl⟩
      simp only [placeDataFromJson, subscriptJ, hnode, hc]
    · refine ⟨.valueError "place_roots must be a non-empty list", ?_, rfl⟩
      simp only [placeDataFromJson, subscriptJ, hnode, hc]
    · refine ⟨.valueError "place_roots must be a non-empty list", ?_, rfl⟩
      simp only [placeDataFromJson, subscriptJ, hnode, hc]
  obtain ⟨e, hpd, hcls⟩ := main
  refine ⟨e, hpd, hcls, ?_⟩
  simp only [runGenerator, npcInit, hpd]

/-- Witness for C7: a `"default"` record that lacks `place_roots`. -/
theorem placeData_schema_error_witness :
    lookupKey [("default", JNode.node [("other", JField.scalar .lnull)])]
        (⟨"default", "default", 1, 1, 2, 3, none⟩ : GeneratorConfig).placeType =
      some (.node [("other", JField.scalar .lnull)]) ∧
    ∃ e, placeDataFromJson [("default", JNode.node [("other", JField.scalar .lnull)])]
        (⟨"default", "default", 1, 1, 2, 3, none⟩ : GeneratorConfig).placeType = .error e ∧
      isSchemaErr e = true ∧
      runGenerator (fun _ _ => 0) ⟨fun _ => 0, 0⟩
        ⟨"default", "default", 1, 1, 2, 3, none⟩
        [("default", JNode.node [("other", JField.scalar .lnull)])] [] = .error e :=
  ⟨by decide,
   placeData_schema_error (fun _ _ => 0) ⟨fun _ => 0, 0⟩
    ⟨"default", "default", 1, 1, 2, 3, none⟩
    [("default", JNode.node [("other", JField.scalar .lnull)])] []
    [("other", JField.scalar .lnull)] (by decide) (Or.inl (by decide))⟩

end Nomen
